import Mathlib

/-!
Verification of the hoarder repository's scheduling and transfer engine:
a shallow embedding of the byte-range partitioning, per-worker download
loop, progress sidecar store, and scheduler queue logic, with theorems
checking the specification's claims against the code.
-/

/-! ## Byte-range partitioning (sync.go, GetFile worker, lines 264-278)

Worker `i` of `N` (1-indexed) downloading a remote file of size `S`:
`start = (S * (i-1)) / N` except worker 1 starts at 0;
`stop = (S * i) / N` except worker `N` stops at `S`. -/

/-- Start offset for worker `i` of `N` on a file of size `S` (sync.go:264-270). -/
def partStart (S N i : Nat) : Nat :=
  if i = 1 then 0 else S * (i - 1) / N

/-- Stop offset for worker `i` of `N` on a file of size `S` (sync.go:273-278). -/
def partStop (S N i : Nat) : Nat :=
  if i = N then S else S * i / N

/-- The boundary function the partition follows: worker boundaries are `S * k / N`. -/
def partBound (S N k : Nat) : Nat := S * k / N

/-! ## Per-worker download loop (sync.go, GetFile, lines 315-365)

The loop reads chunks into a buffer of `dataSize` bytes (initially 512 KiB,
clipped), writes them, and advances `currentSize` by `dataSize` each iteration.
Reads are modelled as a list of results (byte count plus error kind); file
writes and progress writes are assumed to succeed, and the observable behavior
is captured as an event trace. -/

/-- Error kind of one sourceData.Read call: nil, io.EOF, or another error. -/
inductive ReadErr where
  | ok
  | eof
  | fail
deriving DecidableEq, Repr

/-- Outcome of one sourceData.Read call: byte count returned plus error kind. -/
structure ReadRes where
  n : Nat
  err : ReadErr
deriving DecidableEq, Repr

/-- Observable events of the worker loop: progress writes (the offset written),
chunk reads (buffer size and returned byte count), chunk writes (buffer size). -/
inductive Ev where
  | prog (off : Nat)
  | readChunk (bufSize returned : Nat)
  | writeChunk (bufSize : Nat)
deriving DecidableEq, Repr

/-- Result of a worker run: its event trace, final currentSize, and whether it
sent nil (success) or an error on its channel. -/
structure WorkerOut where
  trace : List Ev
  final : Nat
  success : Bool
deriving DecidableEq, Repr

/-- The for-loop of the GetFile worker (sync.go:326-359) plus the final progress
write after it (sync.go:361). State: remaining read results, currentSize, the
mutable dataSize, and the trace so far. Returns none when the supplied read
results run out before the loop finishes. -/
def workerGo (stop : Nat) : List ReadRes → Nat → Nat → List Ev → Option WorkerOut
  | reads, cur, ds, tr =>
    if stop ≤ cur then some ⟨tr ++ [Ev.prog cur], cur, true⟩
    else
      let ds' := if stop < cur + ds then stop - cur else ds
      match reads with
      | [] => none
      | r :: rest =>
        match r.err with
        | ReadErr.fail => some ⟨tr ++ [Ev.prog cur, Ev.readChunk ds' r.n], cur, false⟩
        | ReadErr.eof =>
          if r.n = 0 then
            some ⟨tr ++ [Ev.prog cur, Ev.readChunk ds' 0, Ev.prog cur], cur, true⟩
          else
            workerGo stop rest (cur + ds') ds'
              (tr ++ [Ev.prog cur, Ev.readChunk ds' r.n, Ev.writeChunk ds'])
        | ReadErr.ok =>
          workerGo stop rest (cur + ds') ds'
            (tr ++ [Ev.prog cur, Ev.readChunk ds' r.n, Ev.writeChunk ds'])

/-- The per-worker download body of GetFile: the initial dataSize is 512 KiB
clipped to stop − start (sync.go:316-321), then the loop runs from start. -/
def runWorker (start stop : Nat) (reads : List ReadRes) : Option WorkerOut :=
  let ds0 := if stop - start < 524288 then stop - start else 524288
  workerGo stop reads start ds0 []

/-- Modelled from the spec's per-worker loop wording, for comparison with the
code: each iteration writes the current offset to the progress store, reads up
to one chunk of exactly min(512 KiB, stop − cur) bytes capacity, writes it, and
advances the offset by that clipped chunk size; a final progress write follows
the loop. -/
def specWorkerGo (stop : Nat) : List ReadRes → Nat → List Ev → Option WorkerOut
  | reads, cur, tr =>
    if stop ≤ cur then some ⟨tr ++ [Ev.prog cur], cur, true⟩
    else
      let sz := min 524288 (stop - cur)
      match reads with
      | [] => none
      | r :: rest =>
        match r.err with
        | ReadErr.fail => some ⟨tr ++ [Ev.prog cur, Ev.readChunk sz r.n], cur, false⟩
        | ReadErr.eof =>
          if r.n = 0 then
            some ⟨tr ++ [Ev.prog cur, Ev.readChunk sz 0, Ev.prog cur], cur, true⟩
          else
            specWorkerGo stop rest (cur + sz)
              (tr ++ [Ev.prog cur, Ev.readChunk sz r.n, Ev.writeChunk sz])
        | ReadErr.ok =>
          specWorkerGo stop rest (cur + sz)
            (tr ++ [Ev.prog cur, Ev.readChunk sz r.n, Ev.writeChunk sz])

/-- The progress-write offsets appearing in a trace, in order. -/
def progOffsets : List Ev → List Nat
  | [] => []
  | Ev.prog o :: rest => o :: progOffsets rest
  | Ev.readChunk _ _ :: rest => progOffsets rest
  | Ev.writeChunk _ :: rest => progOffsets rest

/-! ## Multi-stream controller (sync.go, Sync.GetFile, lines 186-235) -/

/-- Sweeping the per-worker channels: the controller returns the first error a
worker reported, or none when every worker sent nil (sync.go:200-227). -/
def collectOutcomes : List (Option String) → Option String
  | [] => none
  | some e :: _ => some e
  | none :: rest => collectOutcomes rest

/-- Sync.GetFile after starting its workers: collect the worker outcomes; only
when every worker sent nil is destroyProgress called. The Bool records whether
destroyProgress was called (sync.go:200-235). -/
def syncGetFile (results : List (Option String)) : Bool × Option String :=
  match collectOutcomes results with
  | some e => (false, some e)
  | none => (true, none)

/-! ## Progress sidecar store (sync.go, lines 467-554)

The sidecar is modelled as its byte list (each entry one byte); an absent file
is none. Positional writes past end-of-file leave a hole of zero bytes. -/

/-- NoProgress sentinel (sync.go:20). -/
def NoProgress : Int := -1

/-- Big-endian two's-complement encoding of an int64 into 8 bytes, as
binary.Write with binary.BigEndian performs (sync.go:540). -/
def encodeInt64BE (v : Int) : List Nat :=
  let u := (v % (2 ^ 64 : Int)).toNat
  [u / 2 ^ 56 % 256, u / 2 ^ 48 % 256, u / 2 ^ 40 % 256, u / 2 ^ 32 % 256,
    u / 2 ^ 24 % 256, u / 2 ^ 16 % 256, u / 2 ^ 8 % 256, u % 256]

/-- Big-endian two's-complement decoding of 8 bytes into an int64, as
binary.Read with binary.BigEndian performs (sync.go:514). -/
def decodeInt64BE (bs : List Nat) : Int :=
  let u : Nat := bs.foldl (fun acc b => acc * 256 + b) 0
  if u < 2 ^ 63 then (u : Int) else (u : Int) - 2 ^ 64

/-- A file's bytes padded with zero bytes up to length n. -/
def padTo (f : List Nat) (n : Nat) : List Nat := f ++ List.replicate (n - f.length) 0

/-- Overwrite bytes at offset off, extending with a zero hole when off is past
the end. -/
def writeAt (f : List Nat) (off : Nat) (bs : List Nat) : List Nat :=
  (padTo f off).take off ++ bs ++ (padTo f off).drop (off + bs.length)

/-- Read up to n bytes at offset off (a read at or past end-of-file returns
fewer than n bytes). -/
def readAt (f : List Nat) (off n : Nat) : List Nat := (f.drop off).take n

/-- updateProgress (sync.go:522-541): open or create the sidecar, seek to slot
workerNumber − 1 (8 bytes per slot), write the 8 big-endian bytes of written. -/
def updateProgress (file : Option (List Nat)) (written : Int) (workerNumber : Nat) :
    List Nat :=
  writeAt (file.getD []) (8 * (workerNumber - 1)) (encodeInt64BE written)

/-- getProgress (sync.go:467-520): NoProgress for an absent or empty sidecar, a
read at end-of-file, or a short read; otherwise the big-endian decode of the 8
bytes at slot workerNumber − 1. -/
def getProgress (file : Option (List Nat)) (workerNumber : Nat) : Int :=
  match file with
  | none => NoProgress
  | some f =>
    if f.length = 0 then NoProgress
    else
      let bs := readAt f (8 * (workerNumber - 1)) 8
      if bs.length = 0 then NoProgress
      else if bs.length ≠ 8 then NoProgress
      else decodeInt64BE bs

/-! ## Scheduler and download queue (queue/queue.go)

Hashes, paths and error strings are modelled as lists of characters (Go
strings are byte slices); Go maps are modelled as association lists keyed on
the first component, writes replacing the existing entry for the key. The
downloadsRunning map carries each in-flight download's size (its other field,
the display path, feeds only the status view, which no claim concerns). -/

/-- A remote torrent record as the queue uses it: the info-hash exactly as
rtorrent reports it, the payload size, and the completion flag. -/
structure RTTorrent where
  hash : List Char
  size : Nat
  completed : Bool
deriving DecidableEq, Repr

/-- Association-list lookup: the Go map read m[k]. -/
def lookupA {α : Type} : List (List Char × α) → List Char → Option α
  | [], _ => none
  | (k', v) :: rest, k => if k' = k then some v else lookupA rest k

/-- Association-list write: the Go map write m[k] = v. -/
def insertA {α : Type} : List (List Char × α) → List Char → α → List (List Char × α)
  | [], k, v => [(k, v)]
  | (k', v') :: rest, k, v =>
    if k' = k then (k, v) :: rest else (k', v') :: insertA rest k v

/-- Association-list removal: Go's delete(m, k). -/
def mapDel {α : Type} : List (List Char × α) → List Char → List (List Char × α)
  | [], _ => []
  | (k', v) :: rest, k => if k' = k then mapDel rest k else (k', v) :: mapDel rest k

/-- The scheduler state the claims concern: the download queue (hash →
metainfo path, queue.go:62) and the in-flight set downloadsRunning (hash →
size, queue.go:471). -/
structure QState where
  downloadQueue : List (List Char × List Char)
  downloadsRunning : List (List Char × Nat)
deriving DecidableEq, Repr

/-- Processing one signal drained from the downloadedHashes channel
(queue.go:551-563): an empty string is ignored; a leading '!' (the failure
sentinel) is stripped and the hash removed only from downloadsRunning; a plain
hash (success) is removed from the download queue and from downloadsRunning. -/
def processSignal (sig : List Char) (st : QState) : QState :=
  match sig with
  | [] => st
  | c :: rest =>
    if c = '!' then
      { st with downloadsRunning := mapDel st.downloadsRunning rest }
    else
      { downloadQueue := mapDel st.downloadQueue (c :: rest),
        downloadsRunning := mapDel st.downloadsRunning (c :: rest) }

/-- The non-blocking drain of the completion channel (queue.go:547-570). -/
def drainSignals (sigs : List (List Char)) (st : QState) : QState :=
  sigs.foldl (fun s sig => processSignal sig s) st

/-- updateTorrentList's map rebuild (queue.go:219-223): a fresh map keyed by
each torrent's hash exactly as reported. -/
def buildTorrentList (ts : List RTTorrent) : List (List Char × RTTorrent) :=
  ts.foldl (fun m t => insertA m t.hash t) []

/-- updateTorrentList (queue.go:213-228): on a successful fetch the registry
is replaced by the rebuilt map; on a failed fetch the error is returned and
the registry left as it was. -/
def updateTorrentList (fetch : Except (List Char) (List RTTorrent))
    (old : List (List Char × RTTorrent)) :
    List (List Char × RTTorrent) × Option (List Char) :=
  match fetch with
  | Except.error e => (old, some e)
  | Except.ok ts => (buildTorrentList ts, none)

/-- strings.ToUpper on a hash string. -/
def toUpperL (s : List Char) : List Char := s.map Char.toUpper

/-- GetTorrentHashHexString (metainfo package, part_002:249-256): the
metainfo's info-hash hex string, uppercased. -/
def getTorrentHashHexString (rawHex : List Char) : List Char := toUpperL rawHex

/-- addTorrentFilePath's queue write (queue.go:236-241): the uppercase hash
keys the download queue. -/
def admitTorrent (rawHex path : List Char) (queue : List (List Char × List Char)) :
    List (List Char × List Char) :=
  insertA queue (getTorrentHashHexString rawHex) path

/-- One queue entry inside getFinishedTorrents (queue.go:353-372): the
registry lookup uses the queued hash as the exact map key; a missing entry
contributes nothing (the torrent is re-added as a side effect), an incomplete
one contributes nothing, and a completed one is returned with its hash
uppercased after the lookup (queue.go:370). -/
def finishedForEntry (reg : List (List Char × RTTorrent)) (h : List Char) :
    Option RTTorrent :=
  match lookupA reg h with
  | none => none
  | some t => if t.completed then some { t with hash := toUpperL t.hash } else none

/-- getFinishedTorrents (queue.go:351-376) over the download queue entries. -/
def getFinishedTorrents (queue : List (List Char × List Char))
    (reg : List (List Char × RTTorrent)) : List RTTorrent :=
  match queue with
  | [] => []
  | (h, _) :: rest =>
    match finishedForEntry reg h with
    | none => getFinishedTorrents rest reg
    | some t => t :: getFinishedTorrents rest reg

/-- One path's disk-space test (queue.go:609-625): with min_disk_space zero
the path passes when free > required; otherwise it passes when free > required
and free − required > min_disk_space (the uint64 subtraction is guarded by the
first comparison). -/
def diskPathOK (minDisk free required : Nat) : Bool :=
  if minDisk = 0 then decide (required < free)
  else decide (required < free) && decide (minDisk < free - required)

/-- The disk-space loop over the checked paths (queue.go:602-626): a path
whose usage query failed (none) is skipped with a log line; the first failing
path sets skip and breaks. Returns true when the candidate is skipped. -/
def diskSkip (minDisk required : Nat) : List (Option Nat) → Bool
  | [] => false
  | none :: rest => diskSkip minDisk required rest
  | some free :: rest =>
    if diskPathOK minDisk free required then diskSkip minDisk required rest else true

/-- Bytes required before starting a candidate (queue.go:597-600): the
candidate's size plus the sizes of all in-flight downloads. -/
def requiredBytes (tSize : Nat) (running : List (List Char × Nat)) : Nat :=
  running.foldl (fun acc e => acc + e.2) tSize

/-- The admission condition as the claim states it: for minDiskSpace zero,
free > required; otherwise free − required ≥ minDiskSpace (over integers). -/
def condDiskClaim (minDisk required free : Nat) : Prop :=
  if minDisk = 0 then required < free
  else (minDisk : Int) ≤ (free : Int) - (required : Int)

/-- NewQueue's normalization of download_jobs (queue.go:134-136): zero
becomes 1. -/
def normalizeConcurrency (c : Nat) : Nat := if c = 0 then 1 else c

/-- The candidate launch loop (queue.go:573-654): each candidate is skipped
when already in-flight, or when the sftp connection or disk-space check skips
it (the skip oracle); otherwise it is recorded in downloadsRunning, and the
loop breaks as soon as the in-flight count reaches the limit. -/
def launchGo (limit : Nat) (skip : RTTorrent → Bool) :
    List RTTorrent → List (List Char × Nat) → List (List Char × Nat)
  | [], run => run
  | t :: rest, run =>
    if (lookupA run t.hash).isSome then launchGo limit skip rest run
    else if skip t then launchGo limit skip rest run
    else
      if (insertA run t.hash t.size).length = limit then insertA run t.hash t.size
      else launchGo limit skip rest (insertA run t.hash t.size)

/-- The guarded launch phase (queue.go:572): candidates are only considered
when the in-flight count is below the limit. -/
def launchDownloads (limit : Nat) (skip : RTTorrent → Bool) (cands : List RTTorrent)
    (run : List (List Char × Nat)) : List (List Char × Nat) :=
  if run.length < limit then launchGo limit skip cands run else run

/-- One scheduler cycle as far as the in-flight set is concerned
(queue.go:547-655): drain the completion channel, then launch new downloads
up to the limit. -/
def runCycle (limit : Nat) (skip : RTTorrent → Bool) (sigs : List (List Char))
    (cands : List RTTorrent) (st : QState) : QState :=
  { downloadQueue := (drainSignals sigs st).downloadQueue,
    downloadsRunning :=
      launchDownloads limit skip cands (drainSignals sigs st).downloadsRunning }


/-! ## Theorems -/

theorem partStart_eq_bound (S N i : Nat) (hi : 1 ≤ i) :
    partStart S N i = partBound S N (i - 1) := by
  unfold partStart partBound
  rcases Nat.eq_or_lt_of_le hi with h | h
  · simp [← h]
  · rw [if_neg (by omega)]

theorem partStop_eq_bound (S N i : Nat) (hN : 1 ≤ N) (hi : i ≤ N) :
    partStop S N i = partBound S N i := by
  unfold partStop partBound
  rcases Nat.eq_or_lt_of_le hi with h | h
  · rw [if_pos h, h, Nat.mul_div_cancel S (by omega)]
  · rw [if_neg (by omega)]

theorem partBound_mono (S N : Nat) : Monotone (partBound S N) := by
  intro a b hab
  exact Nat.div_le_div_right (Nat.mul_le_mul_left S hab)

theorem bUnion_Ico_boundary (f : Nat → Nat) (mono : Monotone f) (n : Nat) :
    (Finset.Icc 1 n).biUnion (fun i => Finset.Ico (f (i - 1)) (f i)) =
      Finset.Ico (f 0) (f n) := by
  induction n with
  | zero => simp
  | succ n ih =>
    have hins : Finset.Icc 1 (n + 1) = insert (n + 1) (Finset.Icc 1 n) := by
      ext x
      simp only [Finset.mem_Icc, Finset.mem_insert]
      omega
    rw [hins, Finset.biUnion_insert, ih]
    rw [Finset.union_comm, show n + 1 - 1 = n from rfl]
    exact Finset.Ico_union_Ico_eq_Ico (mono (Nat.zero_le n)) (mono (by omega))

theorem partBound_zero (S N : Nat) : partBound S N 0 = 0 := by
  simp [partBound]

theorem partBound_last (S N : Nat) (hN : 1 ≤ N) : partBound S N N = S := by
  rw [← partStop_eq_bound S N N hN le_rfl]
  simp [partStop]

theorem partRanges_disjoint_lt (S N i j : Nat) (hN : 1 ≤ N) (hi : 1 ≤ i) (hij : i < j)
    (hjN : j ≤ N) :
    Disjoint (Finset.Ico (partStart S N i) (partStop S N i))
      (Finset.Ico (partStart S N j) (partStop S N j)) := by
  rw [partStart_eq_bound S N i hi, partStop_eq_bound S N i hN (by omega),
    partStart_eq_bound S N j (by omega), partStop_eq_bound S N j hN hjN]
  rw [Finset.disjoint_left]
  intro a ha hb
  rw [Finset.mem_Ico] at ha hb
  have h1 : partBound S N i ≤ partBound S N (j - 1) := partBound_mono S N (by omega)
  omega

/-- Claim C1: for every remote file size S ≥ 0 and worker count N ≥ 1, the per-worker
byte ranges computed by the GetFile worker (sync.go:264-278) are pairwise disjoint and
their union equals the interval from 0 (inclusive) to S (exclusive). -/
theorem claim_C1_partition (S N : Nat) (hN : 1 ≤ N) :
    ((Finset.Icc 1 N).biUnion (fun i => Finset.Ico (partStart S N i) (partStop S N i)) =
        Finset.range S) ∧
      (∀ i j, 1 ≤ i → 1 ≤ j → i ≤ N → j ≤ N → i ≠ j →
        Disjoint (Finset.Ico (partStart S N i) (partStop S N i))
          (Finset.Ico (partStart S N j) (partStop S N j))) := by
  constructor
  · have hc : (Finset.Icc 1 N).biUnion
          (fun i => Finset.Ico (partStart S N i) (partStop S N i)) =
        (Finset.Icc 1 N).biUnion
          (fun i => Finset.Ico (partBound S N (i - 1)) (partBound S N i)) := by
      apply Finset.biUnion_congr rfl
      intro i hi
      rw [Finset.mem_Icc] at hi
      rw [partStart_eq_bound S N i hi.1, partStop_eq_bound S N i hN hi.2]
    rw [hc, bUnion_Ico_boundary (partBound S N) (partBound_mono S N) N,
      partBound_zero, partBound_last S N hN, Finset.range_eq_Ico]
  · intro i j hi hj hiN hjN hij
    rcases Nat.lt_or_ge i j with h | h
    · exact partRanges_disjoint_lt S N i j hN hi h hjN
    · exact (partRanges_disjoint_lt S N j i hN hj (by omega) hiN).symm

/-- Witness for claim C1 at S = 10, N = 3: partitions [0,3), [3,6), [6,10). -/
theorem claim_C1_partition_witness :
    1 ≤ 3 ∧
      (((Finset.Icc 1 3).biUnion (fun i => Finset.Ico (partStart 10 3 i) (partStop 10 3 i)) =
          Finset.range 10) ∧
        (∀ i j, 1 ≤ i → 1 ≤ j → i ≤ 3 → j ≤ 3 → i ≠ j →
          Disjoint (Finset.Ico (partStart 10 3 i) (partStop 10 3 i))
            (Finset.Ico (partStart 10 3 j) (partStop 10 3 j)))) :=
  ⟨by decide, claim_C1_partition 10 3 (by decide)⟩

theorem workerGo_eq_spec (stop : Nat) (reads : List ReadRes) :
    ∀ cur ds tr, cur ≤ stop → min ds (stop - cur) = min 524288 (stop - cur) →
      workerGo stop reads cur ds tr = specWorkerGo stop reads cur tr := by
  induction reads with
  | nil =>
    intro cur ds tr _ _
    unfold workerGo specWorkerGo
    split <;> rfl
  | cons r rest ih =>
    intro cur ds tr hcur hmin
    obtain ⟨n, err⟩ := r
    unfold workerGo specWorkerGo
    split
    · rfl
    next h =>
      have hds : (if stop < cur + ds then stop - cur else ds) = min 524288 (stop - cur) := by
        split <;> omega
      have hrec : cur + min 524288 (stop - cur) ≤ stop := by omega
      have hmin2 : min (min 524288 (stop - cur)) (stop - (cur + min 524288 (stop - cur))) =
          min 524288 (stop - (cur + min 524288 (stop - cur))) := by omega
      cases err with
      | fail => simp [hds]
      | eof =>
        by_cases hn : n = 0
        · subst hn
          simp [hds]
        · simp only [hds, if_neg hn]
          exact ih _ _ _ hrec hmin2
      | ok =>
        simp only [hds]
        exact ih _ _ _ hrec hmin2


/-- Claim C2 as stated predicts that the offset advances by the byte count the
read returned: with stop = 4 and a single read returning 1 byte, it predicts
progress offsets [0, 1]; the code advances by the buffer size and records
[0, 4] instead. -/
theorem claim_C2_counterexample :
    (runWorker 0 4 [⟨1, ReadErr.ok⟩]).map (fun o => progOffsets o.trace) = some [0, 4] ∧
      ¬(runWorker 0 4 [⟨1, ReadErr.ok⟩]).map (fun o => progOffsets o.trace) = some [0, 0 + 1] := by
  decide

/-- Claim C2 (amended): in every iteration the worker writes its current offset
to the progress sidecar before the chunk read, advances the offset by the
clipped chunk size min(512 KiB, stop − cur) — regardless of the byte count the
read returned — and after the loop issues one final progress write recording
the ending offset: the code loop equals the spec-modelled loop that does
exactly this. -/
theorem claim_C2_progress_protocol (start stop : Nat) (reads : List ReadRes)
    (h : start ≤ stop) :
    runWorker start stop reads = specWorkerGo stop reads start [] :=
  workerGo_eq_spec stop reads start
    (if stop - start < 524288 then stop - start else 524288) [] h (by split <;> omega)

/-- Witness for claim C2 (amended) at start 0, stop 4, one read of 1 byte. -/
theorem claim_C2_progress_protocol_witness :
    0 ≤ 4 ∧ runWorker 0 4 [⟨1, ReadErr.ok⟩] = specWorkerGo 4 [⟨1, ReadErr.ok⟩] 0 [] :=
  ⟨by decide, claim_C2_progress_protocol 0 4 [⟨1, ReadErr.ok⟩] (by decide)⟩

/-- Claim C5 as stated predicts a premature-EOF error: with stop = 10 and the
first read returning (0, io.EOF) at offset 0 < 10, the worker instead breaks
out of the loop and reports success (sends nil) with final offset 0. -/
theorem claim_C5_counterexample :
    (runWorker 0 10 [⟨0, ReadErr.eof⟩]).map (fun o => (o.success, o.final)) =
      some (true, 0) ∧ (0 : Nat) < 10 := by
  decide

/-- Claim C5 (amended): a chunk read returning zero bytes at end-of-file before
the current offset reaches stop makes the worker break out of its loop and
complete successfully (sending nil on its channel) after one final progress
write of the offset it reached, rather than failing with an error. -/
theorem claim_C5_eof_break (stop cur ds : Nat) (tr : List Ev) (rest : List ReadRes)
    (h : cur < stop) :
    workerGo stop (⟨0, ReadErr.eof⟩ :: rest) cur ds tr =
      some ⟨tr ++ [Ev.prog cur, Ev.readChunk (if stop < cur + ds then stop - cur else ds) 0,
        Ev.prog cur], cur, true⟩ := by
  unfold workerGo
  rw [if_neg (by omega)]
  rfl

/-- Witness for claim C5 (amended) at stop 10, cur 0, ds 4. -/
theorem claim_C5_eof_break_witness :
    0 < 10 ∧ workerGo 10 [⟨0, ReadErr.eof⟩] 0 4 [] =
      some ⟨[] ++ [Ev.prog 0, Ev.readChunk (if 10 < 0 + 4 then 10 - 0 else 4) 0,
        Ev.prog 0], 0, true⟩ :=
  ⟨by decide, claim_C5_eof_break 10 0 4 [] [] (by decide)⟩

theorem collectOutcomes_eq_none (results : List (Option String)) :
    collectOutcomes results = none ↔ ∀ r ∈ results, r = none := by
  induction results with
  | nil => simp [collectOutcomes]
  | cons r rest ih =>
    cases r with
    | none => simp [collectOutcomes, ih]
    | some e => simp [collectOutcomes]

theorem collectOutcomes_mem (results : List (Option String)) (e : String)
    (h : collectOutcomes results = some e) : some e ∈ results := by
  induction results with
  | nil => simp [collectOutcomes] at h
  | cons r rest ih =>
    cases r with
    | none =>
      simp only [collectOutcomes] at h
      exact List.mem_cons_of_mem _ (ih h)
    | some x =>
      simp only [collectOutcomes, Option.some.injEq] at h
      subst h
      exact List.mem_cons_self _ _

/-- Claim C4: the controller Sync.GetFile deletes the progress sidecar if and
only if all workers report success; when a worker reported an error, the
controller returns an error some worker reported and destroyProgress is not
called. -/
theorem claim_C4_destroy_iff_success (results : List (Option String)) :
    ((syncGetFile results).1 = true ↔ ∀ r ∈ results, r = none) ∧
      (∀ e, (syncGetFile results).2 = some e →
        some e ∈ results ∧ (syncGetFile results).1 = false) := by
  unfold syncGetFile
  cases hc : collectOutcomes results with
  | none =>
    refine ⟨⟨fun _ => (collectOutcomes_eq_none results).mp hc, fun _ => rfl⟩, ?_⟩
    intro e he
    simp at he
  | some e =>
    constructor
    · constructor
      · intro h
        simp at h
      · intro hall
        rw [(collectOutcomes_eq_none results).mpr hall] at hc
        exact absurd hc (by simp)
    · intro e' he'
      simp only [Option.some.injEq] at he'
      subst he'
      exact ⟨collectOutcomes_mem results e hc, rfl⟩

theorem decode_encode_int64 (v : Int) (hlo : -(2 ^ 63) ≤ v) (hhi : v < 2 ^ 63) :
    decodeInt64BE (encodeInt64BE v) = v := by
  unfold decodeInt64BE encodeInt64BE
  have h1 : (0 : Int) ≤ v % 2 ^ 64 := Int.emod_nonneg v (by norm_num)
  have h2 : v % 2 ^ 64 < 2 ^ 64 := Int.emod_lt_of_pos v (by norm_num)
  set u := (v % (2 ^ 64 : Int)).toNat with hu
  have hub : u < 2 ^ 64 := by omega
  have hfold : List.foldl (fun acc b => acc * 256 + b) 0
      [u / 2 ^ 56 % 256, u / 2 ^ 48 % 256, u / 2 ^ 40 % 256, u / 2 ^ 32 % 256,
        u / 2 ^ 24 % 256, u / 2 ^ 16 % 256, u / 2 ^ 8 % 256, u % 256] = u := by
    simp only [List.foldl_cons, List.foldl_nil]
    omega
  simp only [hfold]
  split <;> omega

theorem readAt_writeAt (f : List Nat) (off : Nat) (bs : List Nat) :
    readAt (writeAt f off bs) off bs.length = bs := by
  unfold readAt writeAt padTo
  have hlen : ((f ++ List.replicate (off - f.length) 0).take off).length = off := by
    simp [List.length_take]
    omega
  rw [List.append_assoc, List.drop_left' hlen, List.take_left' rfl]

theorem writeAt_length_ge (f : List Nat) (off : Nat) (bs : List Nat) :
    off + bs.length ≤ (writeAt f off bs).length := by
  unfold writeAt padTo
  have hlen : ((f ++ List.replicate (off - f.length) 0).take off).length = off := by
    simp [List.length_take]
    omega
  simp only [List.length_append, hlen]
  omega

/-- Claim C10: progress slot round-trip. For every sidecar state, worker index
i ≥ 1, and int64 value v, after updateProgress writes v to slot i, getProgress
on slot i decodes the same 8 big-endian bytes at byte offset 8 × (i − 1) and
returns exactly v (so v = −1 is indistinguishable from the NoProgress
sentinel, which is also −1). -/
theorem claim_C10_progress_roundtrip (file : Option (List Nat)) (v : Int) (i : Nat)
    (_hi : 1 ≤ i) (hlo : -(2 ^ 63) ≤ v) (hhi : v < 2 ^ 63) :
    getProgress (some (updateProgress file v i)) i = v := by
  unfold getProgress updateProgress
  have henc : (encodeInt64BE v).length = 8 := rfl
  have hlen := writeAt_length_ge (file.getD []) (8 * (i - 1)) (encodeInt64BE v)
  rw [henc] at hlen
  have hround := readAt_writeAt (file.getD []) (8 * (i - 1)) (encodeInt64BE v)
  rw [henc] at hround
  simp only [hround, henc]
  rw [if_neg (by omega)]
  rw [if_neg (by omega), if_neg (by omega)]
  exact decode_encode_int64 v hlo hhi

/-- Witness for claim C10: an absent sidecar, v = 5, worker 2. -/
theorem claim_C10_progress_roundtrip_witness :
    1 ≤ 2 ∧ -(2 ^ 63) ≤ (5 : Int) ∧ (5 : Int) < 2 ^ 63 ∧
      getProgress (some (updateProgress none 5 2)) 2 = 5 :=
  ⟨by norm_num, by norm_num, by norm_num,
    claim_C10_progress_roundtrip none 5 2 (by norm_num) (by norm_num) (by norm_num)⟩

theorem lookupA_mapDel_self {α : Type} (m : List (List Char × α)) (k : List Char) :
    lookupA (mapDel m k) k = none := by
  induction m with
  | nil => rfl
  | cons e rest ih =>
    obtain ⟨ke, v⟩ := e
    by_cases h : ke = k
    · simpa [mapDel, h] using ih
    · simpa [mapDel, h, lookupA] using ih

theorem lookupA_mapDel_other {α : Type} (m : List (List Char × α)) (k k' : List Char)
    (hne : k' ≠ k) : lookupA (mapDel m k) k' = lookupA m k' := by
  induction m with
  | nil => rfl
  | cons e rest ih =>
    obtain ⟨ke, v⟩ := e
    by_cases h : ke = k
    · subst h
      have h3 : ¬ke = k' := fun hh => hne hh.symm
      simpa [mapDel, lookupA, h3] using ih
    · by_cases h2 : ke = k'
      · simp [mapDel, h, lookupA, h2, hne]
      · simpa [mapDel, h, lookupA, h2] using ih

theorem mapDel_length_le {α : Type} (m : List (List Char × α)) (k : List Char) :
    (mapDel m k).length ≤ m.length := by
  induction m with
  | nil => exact Nat.le_refl 0
  | cons e rest ih =>
    obtain ⟨ke, v⟩ := e
    by_cases h : ke = k
    · simp only [mapDel, if_pos h, List.length_cons]
      omega
    · simp only [mapDel, if_neg h, List.length_cons]
      omega

/-- Claim C6: draining a completion signal removes the hash from the in-flight
set; the hash is removed from the download queue iff the signal is the plain
(success) hash; the failure sentinel '!' ++ hash leaves the download queue
unchanged so the torrent is retried in a later cycle. -/
theorem claim_C6_completion_sentinel (h : List Char) (st : QState)
    (hne : h ≠ []) (hhd : h.head? ≠ some '!') :
    ((processSignal ('!' :: h) st).downloadQueue = st.downloadQueue ∧
      lookupA (processSignal ('!' :: h) st).downloadsRunning h = none) ∧
    (lookupA (processSignal h st).downloadQueue h = none ∧
      lookupA (processSignal h st).downloadsRunning h = none) := by
  cases h with
  | nil => exact absurd rfl hne
  | cons c rest =>
    have hc : ¬c = '!' := by simpa using hhd
    refine ⟨⟨rfl, ?_⟩, ?_, ?_⟩
    · simpa [processSignal] using lookupA_mapDel_self st.downloadsRunning (c :: rest)
    · simpa [processSignal, hc] using lookupA_mapDel_self st.downloadQueue (c :: rest)
    · simpa [processSignal, hc] using lookupA_mapDel_self st.downloadsRunning (c :: rest)

/-- Witness for claim C6 at hash "A" with a one-entry queue and in-flight set. -/
theorem claim_C6_completion_sentinel_witness :
    (['A'] : List Char) ≠ [] ∧ (['A'] : List Char).head? ≠ some '!' ∧
      (((processSignal ('!' :: ['A']) ⟨[(['A'], ['p'])], [(['A'], 5)]⟩).downloadQueue =
            (⟨[(['A'], ['p'])], [(['A'], 5)]⟩ : QState).downloadQueue ∧
          lookupA (processSignal ('!' :: ['A'])
            ⟨[(['A'], ['p'])], [(['A'], 5)]⟩).downloadsRunning ['A'] = none) ∧
        (lookupA (processSignal ['A']
            ⟨[(['A'], ['p'])], [(['A'], 5)]⟩).downloadQueue ['A'] = none ∧
          lookupA (processSignal ['A']
            ⟨[(['A'], ['p'])], [(['A'], 5)]⟩).downloadsRunning ['A'] = none)) :=
  ⟨by decide, by decide,
    claim_C6_completion_sentinel ['A'] ⟨[(['A'], ['p'])], [(['A'], 5)]⟩
      (by decide) (by decide)⟩

/-- Claim C7: updateTorrentList replaces the registry wholesale on success (the
result does not depend on the previous snapshot); a failed fetch returns the
error with the previous snapshot completely unchanged. -/
theorem claim_C7_refresh_atomic (e : List Char) (ts : List RTTorrent)
    (old old' : List (List Char × RTTorrent)) :
    updateTorrentList (Except.error e) old = (old, some e) ∧
      updateTorrentList (Except.ok ts) old = (buildTorrentList ts, none) ∧
      (updateTorrentList (Except.ok ts) old).1 = (updateTorrentList (Except.ok ts) old').1 :=
  ⟨rfl, rfl, rfl⟩

theorem getFinishedTorrents_filterMap (q : List (List Char × List Char))
    (reg : List (List Char × RTTorrent)) :
    getFinishedTorrents q reg = q.filterMap (fun e => finishedForEntry reg e.1) := by
  induction q with
  | nil => rfl
  | cons e rest ih =>
    obtain ⟨h, p⟩ := e
    unfold getFinishedTorrents
    cases hfe : finishedForEntry reg h <;>
      simp [List.filterMap_cons, hfe, ih]

theorem lookupA_eq_none_of_keys_ne {α : Type} (reg : List (List Char × α))
    (h : List Char) (hall : ∀ e ∈ reg, e.1 ≠ h) : lookupA reg h = none := by
  induction reg with
  | nil => rfl
  | cons e rest ih =>
    obtain ⟨ke, v⟩ := e
    have h1 : ke ≠ h := hall (ke, v) (List.mem_cons_self _ _)
    simpa [lookupA, h1] using ih fun x hx => hall x (List.mem_cons_of_mem _ hx)

/-- Claim C8 as stated predicts that the registry lookup in
getFinishedTorrents matches the queued uppercase hash regardless of the case
rtorrent reports: with queued hash "AB" and the registry keyed by the reported
lowercase "ab" (a completed torrent of size 7), the lookup misses and the
finished list is empty, although the same record reported uppercase matches. -/
theorem claim_C8_counterexample :
    getFinishedTorrents [(['A', 'B'], ['p'])]
        [(['a', 'b'], ⟨['a', 'b'], 7, true⟩)] = [] ∧
      toUpperL ['a', 'b'] = ['A', 'B'] ∧
      getFinishedTorrents [(['A', 'B'], ['p'])]
        [(['A', 'B'], ⟨['A', 'B'], 7, true⟩)] = [⟨['A', 'B'], 7, true⟩] := by
  decide

/-- Claim C8 (amended): queued hashes are stored uppercase
(GetTorrentHashHexString uppercases before the queue write), but the registry
keys hashes exactly as rtorrent reports them and the lookup in
getFinishedTorrents is case-sensitive: a queued hash matches only a registry
key that is character-for-character equal, a completed match is returned with
its hash uppercased only after the lookup, and a registry whose keys all
differ from the queued hash (even if only in letter case) yields no match. -/
theorem claim_C8_hash_case (q : List (List Char × List Char))
    (reg : List (List Char × RTTorrent)) :
    (∀ raw p qq, admitTorrent raw p qq = insertA qq (toUpperL raw) p) ∧
      getFinishedTorrents q reg = q.filterMap (fun e => finishedForEntry reg e.1) ∧
      (∀ h, (∀ e ∈ reg, e.1 ≠ h) → finishedForEntry reg h = none) ∧
      (∀ h t, lookupA reg h = some t → t.completed = true →
        finishedForEntry reg h = some { t with hash := toUpperL t.hash }) := by
  refine ⟨fun _ _ _ => rfl, getFinishedTorrents_filterMap q reg, ?_, ?_⟩
  · intro h hall
    unfold finishedForEntry
    rw [lookupA_eq_none_of_keys_ne reg h hall]
  · intro h t hl hc
    unfold finishedForEntry
    rw [hl]
    simp [hc]

theorem diskPathOK_imp_cond (minDisk required free : Nat)
    (h : diskPathOK minDisk free required = true) :
    condDiskClaim minDisk required free := by
  unfold diskPathOK at h
  unfold condDiskClaim
  by_cases h0 : minDisk = 0
  · simp only [h0, if_pos rfl] at h ⊢
    simpa using h
  · rw [if_neg h0] at h ⊢
    simp only [Bool.and_eq_true, decide_eq_true_eq] at h
    omega

theorem not_cond_imp_not_pathOK (minDisk required free : Nat)
    (h : ¬condDiskClaim minDisk required free) :
    diskPathOK minDisk free required = false := by
  unfold condDiskClaim at h
  unfold diskPathOK
  by_cases h0 : minDisk = 0
  · simp only [h0, if_pos rfl] at h ⊢
    simpa using h
  · rw [if_neg h0] at h ⊢
    rw [Bool.and_eq_false_iff]
    simp only [decide_eq_false_iff_not, Nat.not_lt]
    omega

/-- Claim C3: with disk-space checking enabled, a candidate of size s with
in-flight total t (required = s + t) is started only if every checked path
with free bytes f satisfies f − required ≥ min_disk_space (min nonzero) or
f > required (min zero); when some checked path fails that condition the
candidate is skipped for the cycle (no error is returned; paths whose usage
query failed are not checked). -/
theorem claim_C3_disk_gate (minDisk tSize : Nat) (running : List (List Char × Nat))
    (frees : List (Option Nat)) :
    (diskSkip minDisk (requiredBytes tSize running) frees = false →
      ∀ free, some free ∈ frees →
        condDiskClaim minDisk (requiredBytes tSize running) free) ∧
      ((∃ free, some free ∈ frees ∧
          ¬condDiskClaim minDisk (requiredBytes tSize running) free) →
        diskSkip minDisk (requiredBytes tSize running) frees = true) := by
  induction frees with
  | nil =>
    refine ⟨fun _ free hf => absurd hf (by simp), ?_⟩
    rintro ⟨free, hf, -⟩
    exact absurd hf (by simp)
  | cons o rest ih =>
    obtain ⟨ih1, ih2⟩ := ih
    cases o with
    | none =>
      refine ⟨fun hs free hf => ?_, ?_⟩
      · rcases List.mem_cons.mp hf with hh | ht
        · exact absurd hh (by simp)
        · exact ih1 (by simpa [diskSkip] using hs) free ht
      · rintro ⟨free, hf, hnc⟩
        rcases List.mem_cons.mp hf with hh | ht
        · exact absurd hh (by simp)
        · simpa [diskSkip] using ih2 ⟨free, ht, hnc⟩
    | some f =>
      refine ⟨fun hs free hf => ?_, ?_⟩
      · cases hok : diskPathOK minDisk f (requiredBytes tSize running) with
        | false =>
          rw [diskSkip, hok] at hs
          simp at hs
        | true =>
          rw [diskSkip, hok] at hs
          simp only [if_true] at hs
          rcases List.mem_cons.mp hf with hh | ht
          · have : free = f := by simpa using hh
            subst this
            exact diskPathOK_imp_cond minDisk (requiredBytes tSize running) free hok
          · exact ih1 (by simpa using hs) free ht
      · rintro ⟨free, hf, hnc⟩
        rcases List.mem_cons.mp hf with hh | ht
        · have : free = f := by simpa using hh
          subst this
          have hbad := not_cond_imp_not_pathOK minDisk (requiredBytes tSize running) free hnc
          rw [diskSkip, hbad]
          simp
        · cases hok : diskPathOK minDisk f (requiredBytes tSize running) with
          | false =>
            rw [diskSkip, hok]
            simp
          | true =>
            rw [diskSkip, hok]
            simpa using ih2 ⟨free, ht, hnc⟩

theorem length_insertA_of_lookup_none {α : Type} (run : List (List Char × α))
    (k : List Char) (v : α) (h : lookupA run k = none) :
    (insertA run k v).length = run.length + 1 := by
  induction run with
  | nil => rfl
  | cons e rest ih =>
    obtain ⟨ke, ve⟩ := e
    by_cases hk : ke = k
    · rw [lookupA, if_pos hk] at h
      cases h
    · rw [lookupA, if_neg hk] at h
      rw [insertA, if_neg hk]
      simp [ih h]

theorem launchGo_length_le (limit : Nat) (skip : RTTorrent → Bool)
    (cands : List RTTorrent) :
    ∀ run : List (List Char × Nat), run.length < limit →
      (launchGo limit skip cands run).length ≤ limit := by
  induction cands with
  | nil =>
    intro run h
    rw [launchGo]
    omega
  | cons t rest ih =>
    intro run h
    rw [launchGo]
    by_cases h1 : (lookupA run t.hash).isSome
    · rw [if_pos h1]
      exact ih run h
    · rw [if_neg h1]
      by_cases h2 : skip t
      · rw [if_pos h2]
        exact ih run h
      · rw [if_neg h2]
        have hnone : lookupA run t.hash = none := by
          cases hl : lookupA run t.hash
          · rfl
          · rw [hl] at h1
            simp at h1
        have hlen := length_insertA_of_lookup_none run t.hash t.size hnone
        by_cases h3 : (insertA run t.hash t.size).length = limit
        · rw [if_pos h3]
          omega
        · rw [if_neg h3]
          exact ih _ (by omega)

theorem launchDownloads_length_le (limit : Nat) (skip : RTTorrent → Bool)
    (cands : List RTTorrent) (run : List (List Char × Nat))
    (h : run.length ≤ limit) :
    (launchDownloads limit skip cands run).length ≤ limit := by
  unfold launchDownloads
  by_cases hlt : run.length < limit
  · rw [if_pos hlt]
    exact launchGo_length_le limit skip cands run hlt
  · rw [if_neg hlt]
    exact h

theorem processSignal_running_le (sig : List Char) (st : QState) :
    (processSignal sig st).downloadsRunning.length ≤ st.downloadsRunning.length := by
  cases sig with
  | nil => exact Nat.le_refl _
  | cons c rest =>
    by_cases hc : c = '!'
    · simpa [processSignal, hc] using mapDel_length_le st.downloadsRunning rest
    · simpa [processSignal, hc] using mapDel_length_le st.downloadsRunning (c :: rest)

theorem drainSignals_running_le (sigs : List (List Char)) :
    ∀ st : QState,
      (drainSignals sigs st).downloadsRunning.length ≤ st.downloadsRunning.length := by
  induction sigs with
  | nil => exact fun st => Nat.le_refl _
  | cons s rest ih =>
    intro st
    exact Nat.le_trans (ih (processSignal s st)) (processSignal_running_le s st)

/-- Claim C9: across a scheduler cycle (completion-channel drain followed by
the launch loop), the in-flight set never exceeds the configured concurrency
limit ConcurrentDownloads, where a zero download_jobs configuration is
normalized to 1 by NewQueue; draining only shrinks the set and the launch loop
stops adding as soon as the limit is reached. -/
theorem claim_C9_concurrency_bound (c : Nat) (skip : RTTorrent → Bool)
    (sigs : List (List Char)) (cands : List RTTorrent) (st : QState)
    (h : st.downloadsRunning.length ≤ normalizeConcurrency c) :
    (runCycle (normalizeConcurrency c) skip sigs cands st).downloadsRunning.length ≤
      normalizeConcurrency c := by
  unfold runCycle
  exact launchDownloads_length_le _ skip cands _
    (Nat.le_trans (drainSignals_running_le sigs st) h)

/-- Witness for claim C9: zero configured jobs (normalized to 1), an empty
state, and two completed candidates; at most one download is launched. -/
theorem claim_C9_concurrency_bound_witness :
    (⟨[], []⟩ : QState).downloadsRunning.length ≤ normalizeConcurrency 0 ∧
      (runCycle (normalizeConcurrency 0) (fun _ => false) []
          [⟨['A'], 3, true⟩, ⟨['B'], 4, true⟩]
          ⟨[], []⟩).downloadsRunning.length ≤ normalizeConcurrency 0 :=
  ⟨by decide,
    claim_C9_concurrency_bound 0 (fun _ => false) []
      [⟨['A'], 3, true⟩, ⟨['B'], 4, true⟩] ⟨[], []⟩ (by decide)⟩
